import Mathlib

/-!
Verification of the embedded code-execution sandbox and the per-user
conversation memory manager of `src/bot.py` (class `SaaraaBot`).

The Python source is shallowly embedded below:
* the conversation store becomes explicit state passing over a functional
  map from user ids to sessions, with time supplied as a `Nat` of seconds;
* the fenced-code-block extraction regex ``` `(?:(\w+)\s*)?(.*?)` ``` with
  `re.DOTALL` is embedded as a backtracking matcher with exactly the
  engine's choice order (greedy `\w+` and `\s*` widest first, lazy `.*?`
  shortest first, leftmost match, scan resumes after each match);
* the language allow-list and the ordered case-insensitive deny-pattern
  scan of `execute_code_block` become `evaluate`;
* child-process execution is embedded by passing the environment's
  contribution (exit status and captured streams, a timeout, or an
  exception raised by the spawn call) as an explicit `SpawnOutcome`
  argument; the embedding records, in `ProcState`, which process-control
  actions the source performs on each path.  On the timeout path the
  source only catches `asyncio.TimeoutError` and returns a message:
  `asyncio.wait_for` cancels the `communicate()` coroutine without killing
  the child and no `kill`/`terminate` call appears in the handler, so the
  child is still running when the function returns, which the embedding
  records as `ProcState.running`.
-/

set_option maxHeartbeats 1000000

namespace Saaraa

/-- Whitespace characters of Python's `str.strip` and of the regex class
`\s` (ASCII range, which covers every input in this development). -/
def pyIsSpace (c : Char) : Bool :=
  c = ' ' || c = '\t' || c = '\n' || c = '\r' || c = '\x0b' || c = '\x0c'

/-- Word characters of the regex class `\w` (ASCII letters, digits and the
underscore; every input in this development is ASCII). -/
def isWordChar (c : Char) : Bool :=
  c.isAlphanum || c = '_'

/-- The needle is a prefix of the hay. -/
def startsWith : List Char → List Char → Bool
  | [], _ => true
  | _ :: _, [] => false
  | c :: cs, d :: ds => c = d && startsWith cs ds

/-- Unanchored search: some suffix of the text satisfies the test. -/
def searchAt (test : List Char → Bool) : List Char → Bool
  | [] => test []
  | c :: rest => test (c :: rest) || searchAt test rest

/-- Substring containment, i.e. `re.search` of a literal pattern. -/
def containsSub (needle hay : List Char) : Bool :=
  searchAt (startsWith needle) hay

/-- ASCII lowercasing of a character list (`str.lower`, and the
normalisation performed by `re.IGNORECASE` for all-lowercase patterns). -/
def lowerData (cs : List Char) : List Char :=
  cs.map Char.toLower

/-- Python `str.strip`: drop leading and trailing whitespace. -/
def stripChars (cs : List Char) : List Char :=
  ((cs.dropWhile pyIsSpace).reverse.dropWhile pyIsSpace).reverse

/-- One conversation turn; bot.py stores dicts with keys role and content. -/
structure Turn where
  role : String
  content : String
  deriving DecidableEq

/-- One per-user session record of `self.conversations`. -/
structure Session where
  messages : List Turn
  lastActivity : Nat
  deriving DecidableEq

/-- The per-user conversation map `self.conversations`. -/
def Conversations : Type :=
  Nat → Option Session

/-- Point update of the conversation map (dict assignment). -/
def updateConv (conv : Conversations) (uid : Nat) (s : Session) : Conversations :=
  fun u => if u = uid then some s else conv u

/-- `self.memory_timeout = timedelta(minutes=5)`, in seconds. -/
def memoryTimeoutSecs : Nat := 300

/-- `SaaraaBot.get_or_reset_conversation` (bot.py lines 35-59), with the
wall clock passed explicitly in seconds.  Returns the turn list the call
returns together with the updated map. -/
def get_or_reset_conversation (conv : Conversations) (uid : Nat) (now : Nat) :
    List Turn × Conversations :=
  match conv uid with
  | none => ([], updateConv conv uid ⟨[], now⟩)
  | some s =>
    if now - s.lastActivity > memoryTimeoutSecs then
      ([], updateConv conv uid ⟨[], now⟩)
    else
      (s.messages, updateConv conv uid ⟨s.messages, now⟩)

/-- `SaaraaBot.add_to_conversation` (bot.py lines 61-78): create the
session if absent, append one turn, keep only the last 10 messages, and
refresh the activity timestamp. -/
def add_to_conversation (conv : Conversations) (uid : Nat) (role content : String)
    (now : Nat) : Conversations :=
  let msgs :=
    match conv uid with
    | none => []
    | some s => s.messages
  let appended := msgs ++ [⟨role, content⟩]
  let trimmed :=
    if appended.length > 10 then appended.drop (appended.length - 10) else appended
  updateConv conv uid ⟨trimmed, now⟩

/-- The message list currently stored for a user (empty when absent). -/
def messagesAt (conv : Conversations) (uid : Nat) : List Turn :=
  match conv uid with
  | none => []
  | some s => s.messages

/-- A sequence of `add_to_conversation` calls for one user, each item
carrying the turn and the wall clock of that call. -/
def runAppends (conv : Conversations) (uid : Nat) (items : List (Turn × Nat)) :
    Conversations :=
  items.foldl (fun c it => add_to_conversation c uid it.1.role it.1.content it.2) conv

/-- The list-level step performed on one user's message list by
`add_to_conversation`: append, then keep the last 10. -/
def appendStep (msgs : List Turn) (t : Turn) : List Turn :=
  if (msgs ++ [t]).length > 10 then
    (msgs ++ [t]).drop ((msgs ++ [t]).length - 10)
  else msgs ++ [t]

/-- The triple-backtick fence marker of the extraction regex. -/
def fence : List Char := ("```").data

/-- The lazy `(.*?)` body followed by the closing fence: the shortest
prefix after which the fence follows; returns the body and the text after
the closing fence.  `re.DOTALL` lets the body cross newlines. -/
def splitClose : List Char → Option (List Char × List Char)
  | [] => none
  | c :: rest =>
    if (c :: rest).take 3 = fence then
      some ([], (c :: rest).drop 3)
    else
      (splitClose rest).map (fun p => (c :: p.1, p.2))

/-- Backtracking over the greedy interior `\s*` of the extraction pattern:
widest whitespace run first, exactly as the regex engine retries it. -/
def trySpaces (cs : List Char) : Nat → Option (List Char × List Char)
  | 0 => splitClose cs
  | j + 1 =>
    match splitClose (cs.drop (j + 1)) with
    | some r => some r
    | none => trySpaces cs j

/-- Backtracking over the greedy `\w+` language tag: longest tag first.
Returns the tag, the raw body, and the rest after the closing fence. -/
def tryLang (cs : List Char) : Nat → Option (List Char × List Char × List Char)
  | 0 => none
  | k + 1 =>
    let langTag := cs.take (k + 1)
    let afterLang := cs.drop (k + 1)
    match trySpaces afterLang ((afterLang.takeWhile pyIsSpace).length) with
    | some r => some (langTag, r.1, r.2)
    | none => tryLang cs k

/-- One attempt of the extraction regex at the current position: the
opening fence, then the optional `(\w+)\s*` group (present first, as the
engine prefers), then the lazy body and the closing fence. -/
def matchAt (cs : List Char) : Option (List Char × List Char × List Char) :=
  if cs.take 3 = fence then
    let rest := cs.drop 3
    match tryLang rest ((rest.takeWhile isWordChar).length) with
    | some r => some r
    | none => (splitClose rest).map (fun p => ([], p.1, p.2))
  else none

/-- The `re.findall` scan: try the pattern at each position from the left,
resume after the end of each match.  The fuel equals the text length, which
bounds the number of scan steps since every step consumes at least one
character. -/
def scanAux : Nat → List Char → List (List Char × List Char)
  | 0, _ => []
  | _ + 1, [] => []
  | fuel + 1, c :: rest =>
    match matchAt (c :: rest) with
    | some r => (r.1, r.2.1) :: scanAux fuel r.2.2
    | none => scanAux fuel rest

/-- An extracted code block (dict with keys language and code). -/
structure CodeBlock where
  language : String
  code : String
  deriving DecidableEq

/-- `SaaraaBot.extract_code_blocks` (bot.py lines 245-261): run the regex,
strip each body, drop empty bodies, lowercase the tag, default to bash
when the optional language group did not participate (empty capture). -/
def extract_code_blocks (text : String) : List CodeBlock :=
  (scanAux text.data.length text.data).filterMap (fun m =>
    if stripChars m.2 = [] then none
    else some ⟨if m.1 = [] then "bash" else String.mk (lowerData m.1),
      String.mk (stripChars m.2)⟩)

/-- After a literal, the regex fragment `\s+` (one or more whitespace
characters) followed by another literal. -/
def wsThen (lit : List Char) : List Char → Bool
  | [] => false
  | c :: rest => pyIsSpace c && (startsWith lit rest || wsThen lit rest)

/-- The regex fragment `.*` (which never crosses a newline without
`re.DOTALL`) followed by a continuation test. -/
def dotStarThen (next : List Char → Bool) : List Char → Bool
  | [] => next []
  | c :: rest => next (c :: rest) || (!(c = '\n') && dotStarThen next rest)

/-- The tail of the pipe-to-shell patterns after the download command. -/
def pipeBashAfter (cs : List Char) : Bool :=
  dotStarThen (fun t =>
    match t with
    | [] => false
    | c :: rest => c = '|' && dotStarThen (fun u => startsWith (("bash").data) u) rest) cs

/-- `re.search` of a literal deny pattern over the lowercased body. -/
def litSearch (lit : List Char) (cs : List Char) : Bool :=
  containsSub lit cs

/-- `re.search` of a pattern of the shape literal, `\s+`, literal. -/
def sepSearch (l1 l2 : List Char) (cs : List Char) : Bool :=
  searchAt (fun s => startsWith l1 s && wsThen l2 (s.drop l1.length)) cs

/-- `re.search` of the pattern ampersand, `\s*`, end anchor (without
`re.MULTILINE` the anchor only matches at the end of the text, or before a
final newline, which the whitespace class also covers). -/
def ampEnd (cs : List Char) : Bool :=
  searchAt (fun s =>
    match s with
    | [] => false
    | c :: rest => c = '&' && rest.all pyIsSpace) cs

/-- `re.search` of a pipe-to-shell pattern: download command, `.*`, a pipe
character, `.*`, the shell name. -/
def pipeSearch (head : List Char) (cs : List Char) : Bool :=
  searchAt (fun s => startsWith head s && pipeBashAfter (s.drop head.length)) cs

/-- `dangerous_patterns` (bot.py lines 274-287) in source order, each
regex source string paired with the matcher implementing it; matchers run
on the lowercased body, which realises `re.IGNORECASE` for these
all-lowercase patterns. -/
def patternTable : List (String × (List Char → Bool)) :=
  [ ("rm\\s+-rf", sepSearch (("rm").data) (("-rf").data)),
    ("sudo", litSearch (("sudo").data)),
    ("chmod\\s+777", sepSearch (("chmod").data) (("777").data)),
    (">/dev/null", litSearch ((">/dev/null").data)),
    ("&\\s*$", ampEnd),
    ("shutdown", litSearch (("shutdown").data)),
    ("reboot", litSearch (("reboot").data)),
    ("format", litSearch (("format").data)),
    ("mkfs", litSearch (("mkfs").data)),
    ("dd\\s+if=", sepSearch (("dd").data) (("if=").data)),
    ("curl.*\\|.*bash", pipeSearch (("curl").data)),
    ("wget.*\\|.*bash", pipeSearch (("wget").data)) ]

/-- The language allow-list of `execute_code_block` (bot.py line 270). -/
def allowedLanguages : List String :=
  ["bash", "sh", "python", "py", "javascript", "js", "node"]

/-- Outcome of the policy screen; the two denial constructors carry what
the corresponding early-return messages of the source report. -/
inductive PolicyDecision where
  | Allow : PolicyDecision
  | DenyUnsupported : String → PolicyDecision
  | DenyPattern : String → PolicyDecision
  deriving DecidableEq

/-- The for-loop over `dangerous_patterns` (bot.py lines 289-291): the
first matching pattern is reported. -/
def firstDangerousAux : List (String × (List Char → Bool)) → List Char → Option String
  | [], _ => none
  | p :: rest, cs => if p.2 cs then some p.1 else firstDangerousAux rest cs

/-- First matching deny pattern of the full table, if any. -/
def firstDangerous (cs : List Char) : Option String :=
  firstDangerousAux patternTable cs

/-- The in-line policy screen of `execute_code_block` (bot.py lines
269-291): language allow-list first, then the ordered deny-pattern scan. -/
def evaluate (b : CodeBlock) : PolicyDecision :=
  if b.language ∈ allowedLanguages then
    match firstDangerous (lowerData b.code.data) with
    | some p => PolicyDecision.DenyPattern p
    | none => PolicyDecision.Allow
  else PolicyDecision.DenyUnsupported b.language

/-- The environment's contribution to one execution: the child completes
within the timeout with an exit status and captured, permissively decoded
streams; or the 30-second `asyncio.wait_for` deadline fires; or the spawn
call itself raises an exception with the given message. -/
inductive SpawnOutcome where
  | completes : Int → String → String → SpawnOutcome
  | timesOut : SpawnOutcome
  | raisesError : String → SpawnOutcome
  deriving DecidableEq

/-- Status classification of the return branches of `execute_code_block`. -/
inductive Status where
  | Success | Failure | Blocked | TimedOut | ExecutionError
  deriving DecidableEq

/-- State of the child process at the moment `execute_code_block` returns,
as determined by which process-control actions the source performs on the
taken path: `notSpawned` when no child was created, `exited` when the
source awaited its completion, and `running` on the timeout path, where
`asyncio.wait_for` cancels `communicate()` without killing the child and
the `except asyncio.TimeoutError` handler issues no kill or terminate. -/
inductive ProcState where
  | notSpawned | running | exited
  deriving DecidableEq

/-- Result of one execution: the status of the taken return branch, the
stream text that branch reports (stdout on success, stderr on failure, the
exception message on a spawn error), the rendered message the source
returns, and the child-process state on return. -/
structure ExecResult where
  status : Status
  output : String
  rendered : String
  procState : ProcState
  deriving DecidableEq

/-- One language-family branch of `execute_code_block` (bot.py lines
294-344): all three families share this shape and differ only in the
labels of their rendered messages. -/
def runBranch (okLabel failLabel : String) (out : SpawnOutcome) : ExecResult :=
  match out with
  | SpawnOutcome.completes rc stdout stderr =>
    if rc = 0 then
      if stdout = "" then
        ⟨Status.Success, stdout, "✅ *" ++ okLabel ++ "* (no output)", ProcState.exited⟩
      else
        ⟨Status.Success, stdout,
          "✅ *" ++ okLabel ++ ":*\n```shell\n" ++ stdout ++ "\n```", ProcState.exited⟩
    else
      ⟨Status.Failure, stderr,
        "❌ *" ++ failLabel ++ ":*\n```shell\n" ++ stderr ++ "\n```", ProcState.exited⟩
  | SpawnOutcome.timesOut =>
    ⟨Status.TimedOut, "", "❌ *Execution timed out* (30 second limit)", ProcState.running⟩
  | SpawnOutcome.raisesError m =>
    ⟨Status.ExecutionError, m, "❌ *Execution error:* " ++ m, ProcState.notSpawned⟩

/-- `SaaraaBot.execute_code_block` (bot.py lines 263-349): the policy
screen short-circuits without spawning; otherwise the block is dispatched
on its language family and the spawn outcome decides the branch. -/
def execute_code_block (b : CodeBlock) (out : SpawnOutcome) : ExecResult :=
  match evaluate b with
  | PolicyDecision.DenyUnsupported lang =>
    ⟨Status.Blocked, "", "❌ Language '" ++ lang ++ "' not supported for execution",
      ProcState.notSpawned⟩
  | PolicyDecision.DenyPattern p =>
    ⟨Status.Blocked, "", "❌ Potentially dangerous command detected: " ++ p,
      ProcState.notSpawned⟩
  | PolicyDecision.Allow =>
    if b.language = "bash" || b.language = "sh" then
      runBranch ("Executed successfully") ("Execution failed") out
    else if b.language = "python" || b.language = "py" then
      runBranch ("Python executed successfully") ("Python execution failed") out
    else
      runBranch ("Node.js executed successfully") ("Node.js execution failed") out

/-- The chunk size of the long-message split in `handle_run_command`
(bot.py line 400). -/
def chunkSize : Nat := 4000

/-- The list comprehension slicing the concatenated result text into
consecutive 4000-character slices (bot.py line 401). -/
def chunksOf (cs : List Char) : List (List Char) :=
  match cs with
  | [] => []
  | c :: rest => (c :: rest).take chunkSize :: chunksOf ((c :: rest).drop chunkSize)
  termination_by cs.length
  decreasing_by simp [chunkSize]; omega

/-- The message-splitting step of `handle_run_command` (bot.py lines
397-405): texts longer than 4000 characters are sliced, shorter texts are
sent whole. -/
def split_long_message (s : String) : List String :=
  if s.length > chunkSize then (chunksOf s.data).map String.mk else [s]

/-- Concrete 4001-character text used to exercise the splitting path. -/
def bigString : String := String.mk (List.replicate 4001 'x')

/-- The empty conversation map (fresh `self.conversations`). -/
def emptyConv : Conversations := fun _ => none

/-- Concrete append sequence used to exercise the window. -/
def demoItems : List (Turn × Nat) :=
  [(⟨"user", "a"⟩, 1), (⟨"assistant", "b"⟩, 2), (⟨"user", "c"⟩, 3)]

/-- Concrete map holding one stale session for user 0. -/
def demoConv : Conversations :=
  fun u => if u = 0 then some ⟨[⟨"user", "hi"⟩], 0⟩ else none

theorem messagesAt_add (conv : Conversations) (uid : Nat) (r c : String) (now : Nat) :
    messagesAt (add_to_conversation conv uid r c now) uid
      = appendStep (messagesAt conv uid) ⟨r, c⟩ := by
  cases h : conv uid <;>
    simp [add_to_conversation, appendStep, messagesAt, updateConv, h]

theorem runAppends_cons (conv : Conversations) (uid : Nat) (it : Turn × Nat)
    (rest : List (Turn × Nat)) :
    runAppends conv uid (it :: rest)
      = runAppends (add_to_conversation conv uid it.1.role it.1.content it.2) uid rest :=
  rfl

theorem messagesAt_runAppends (uid : Nat) (items : List (Turn × Nat)) :
    ∀ conv : Conversations,
      messagesAt (runAppends conv uid items) uid
        = List.foldl appendStep (messagesAt conv uid) (items.map (fun it => it.1)) := by
  induction items with
  | nil => intro conv; rfl
  | cons it rest ih =>
    intro conv
    rw [runAppends_cons, ih, List.map_cons, List.foldl_cons, messagesAt_add]

theorem appendStep_length_le (l : List Turn) (t : Turn) :
    (appendStep l t).length ≤ 10 := by
  simp only [appendStep]
  split
  · simp
    omega
  · simp_all

theorem foldl_appendStep (ms : List Turn) :
    List.foldl appendStep [] ms = ms.drop (ms.length - 10) := by
  induction ms using List.reverseRecOn with
  | nil => rfl
  | append_singleton ms t ih =>
    rw [List.foldl_append, ih, List.foldl_cons, List.foldl_nil]
    by_cases h : ms.length < 10
    · have h1 : ms.length - 10 = 0 := by omega
      have h2 : (ms ++ [t]).length - 10 = 0 := by simp; omega
      have h3 : ¬ (ms ++ [t]).length > 10 := by simp; omega
      rw [h1, h2, List.drop_zero, List.drop_zero]
      simp only [appendStep, if_neg h3]
    · push_neg at h
      have hlen : (ms.drop (ms.length - 10)).length = 10 := by simp; omega
      have hgt : (ms.drop (ms.length - 10) ++ [t]).length > 10 := by simp; omega
      simp only [appendStep, if_pos hgt]
      have e1 : (ms.drop (ms.length - 10) ++ [t]).length - 10 = 1 := by simp; omega
      rw [e1, List.drop_append_of_le_length (by omega), List.drop_drop]
      have e2 : ms.length - 10 + 1 = (ms ++ [t]).length - 10 := by simp; omega
      rw [e2, List.drop_append_of_le_length (by simp)]

/-- C2: for every user and every sequence of N `add_to_conversation`
calls, the stored turn list has length `min N 10` and is exactly the last
`min N 10` appended turns in insertion order; the bound `length ≤ 10`
holds after every append, and a `get_or_reset_conversation` call never
increases the stored length. -/
theorem append_keeps_last_ten (uid : Nat) (items : List (Turn × Nat))
    (conv0 : Conversations) (h0 : conv0 uid = none) :
    (messagesAt (runAppends conv0 uid items) uid).length = min items.length 10 ∧
    messagesAt (runAppends conv0 uid items) uid
      = (items.map (fun it => it.1)).drop (items.length - 10) ∧
    (∀ (conv : Conversations) (r c : String) (now : Nat),
      (messagesAt (add_to_conversation conv uid r c now) uid).length ≤ 10) ∧
    (∀ (conv : Conversations) (now : Nat),
      (messagesAt ((get_or_reset_conversation conv uid now).2) uid).length
        ≤ (messagesAt conv uid).length) := by
  have hbase : messagesAt conv0 uid = [] := by simp [messagesAt, h0]
  have hmain : messagesAt (runAppends conv0 uid items) uid
      = (items.map (fun it => it.1)).drop (items.length - 10) := by
    rw [messagesAt_runAppends, hbase, foldl_appendStep]
    simp
  refine ⟨?_, hmain, ?_, ?_⟩
  · rw [hmain]
    simp
    omega
  · intro conv r c now
    rw [messagesAt_add]
    exact appendStep_length_le _ _
  · intro conv now
    cases h : conv uid with
    | none => simp [get_or_reset_conversation, h, messagesAt, updateConv]
    | some s =>
      by_cases ht : now - s.lastActivity > memoryTimeoutSecs <;>
        simp [get_or_reset_conversation, h, ht, messagesAt, updateConv]

theorem append_keeps_last_ten_witness :
    messagesAt (runAppends emptyConv 7 demoItems) 7
      = [⟨"user", "a"⟩, ⟨"assistant", "b"⟩, ⟨"user", "c"⟩] :=
  ((append_keeps_last_ten 7 demoItems emptyConv rfl).2.1).trans (by decide)

/-- C3: `get_or_reset_conversation` returns the stored history when the
idle time does not exceed the 5-minute timeout, and otherwise clears the
history, stamps the activity time with now, and returns the empty list;
on every path the stored activity time becomes now, and after an
idle-triggered reset the next `add_to_conversation` stores exactly the
one fresh turn. -/
theorem get_or_reset_spec (conv : Conversations) (uid now : Nat) :
    (∀ s : Session, conv uid = some s → now - s.lastActivity ≤ memoryTimeoutSecs →
      (get_or_reset_conversation conv uid now).1 = s.messages ∧
      (get_or_reset_conversation conv uid now).2 uid = some ⟨s.messages, now⟩) ∧
    (∀ s : Session, conv uid = some s → now - s.lastActivity > memoryTimeoutSecs →
      (get_or_reset_conversation conv uid now).1 = [] ∧
      (get_or_reset_conversation conv uid now).2 uid = some ⟨[], now⟩ ∧
      (∀ (r c : String) (n2 : Nat),
        messagesAt
          (add_to_conversation ((get_or_reset_conversation conv uid now).2) uid r c n2) uid
          = [⟨r, c⟩])) ∧
    (conv uid = none →
      (get_or_reset_conversation conv uid now).1 = [] ∧
      (get_or_reset_conversation conv uid now).2 uid = some ⟨[], now⟩) ∧
    (∃ ms : List Turn, (get_or_reset_conversation conv uid now).2 uid = some ⟨ms, now⟩) := by
  refine ⟨?_, ?_, ?_, ?_⟩
  · intro s hs hle
    have ht : ¬ now - s.lastActivity > memoryTimeoutSecs := by omega
    simp [get_or_reset_conversation, hs, ht, updateConv]
  · intro s hs ht
    have hupd : (get_or_reset_conversation conv uid now).2 uid = some ⟨[], now⟩ := by
      simp [get_or_reset_conversation, hs, ht, updateConv]
    refine ⟨by simp [get_or_reset_conversation, hs, ht], hupd, ?_⟩
    intro r c n2
    rw [messagesAt_add]
    have : messagesAt ((get_or_reset_conversation conv uid now).2) uid = [] := by
      simp [messagesAt, hupd]
    rw [this]
    simp [appendStep]
  · intro hnone
    simp [get_or_reset_conversation, hnone, updateConv]
  · cases hs : conv uid with
    | none => exact ⟨[], by simp [get_or_reset_conversation, hs, updateConv]⟩
    | some s =>
      by_cases ht : now - s.lastActivity > memoryTimeoutSecs
      · exact ⟨[], by simp [get_or_reset_conversation, hs, ht, updateConv]⟩
      · exact ⟨s.messages, by simp [get_or_reset_conversation, hs, ht, updateConv]⟩

theorem get_or_reset_spec_witness :
    (get_or_reset_conversation demoConv 0 1000).1 = [] ∧
    (get_or_reset_conversation demoConv 0 1000).2 0 = some ⟨[], 1000⟩ ∧
    messagesAt
      (add_to_conversation ((get_or_reset_conversation demoConv 0 1000).2) 0 ("user")
        ("hello") 1001) 0
      = [⟨"user", "hello"⟩] :=
  have h := (get_or_reset_spec demoConv 0 1000).2.1 ⟨[⟨"user", "hi"⟩], 0⟩ rfl (by decide)
  ⟨h.1, h.2.1, h.2.2 ("user") ("hello") 1001⟩

theorem firstDangerousAux_all_false (cs : List Char) :
    ∀ tbl : List (String × (List Char → Bool)),
      (∀ p ∈ tbl, p.2 cs = false) → firstDangerousAux tbl cs = none := by
  intro tbl
  induction tbl with
  | nil => intro _; rfl
  | cons p rest ih =>
    intro h
    have hp : p.2 cs = false := h p (by simp)
    simp only [firstDangerousAux, hp, Bool.false_eq_true, if_false]
    exact ih (fun q hq => h q (by simp [hq]))

theorem firstDangerousAux_first (cs : List Char) :
    ∀ (pre : List (String × (List Char → Bool))) (pr : String × (List Char → Bool))
      (post : List (String × (List Char → Bool))),
      pr.2 cs = true → (∀ q ∈ pre, q.2 cs = false) →
      firstDangerousAux (pre ++ pr :: post) cs = some pr.1 := by
  intro pre
  induction pre with
  | nil =>
    intro pr post hm _
    simp [firstDangerousAux, hm]
  | cons q rest ih =>
    intro pr post hm hpre
    have hq : q.2 cs = false := hpre q (by simp)
    simp only [List.cons_append, firstDangerousAux, hq, Bool.false_eq_true, if_false]
    exact ih pr post hm (fun r hr => hpre r (by simp [hr]))

/-- C4: `evaluate` denies every block whose language lies outside the
allow-list with the unsupported-language reason; for an allowed language
it scans the body case-insensitively along the fixed ordered deny-pattern
list, denies naming the first matching pattern, and allows when no
pattern matches; in particular a bash rm -rf block is denied naming that
pattern, a ruby block is denied as unsupported, and a plain python print
block is allowed. -/
theorem policy_screen_spec (b : CodeBlock) :
    (b.language ∉ allowedLanguages →
      evaluate b = PolicyDecision.DenyUnsupported b.language) ∧
    (b.language ∈ allowedLanguages →
      ((∀ p ∈ patternTable, p.2 (lowerData b.code.data) = false) →
        evaluate b = PolicyDecision.Allow) ∧
      (∀ (pre : List (String × (List Char → Bool))) (pr : String × (List Char → Bool))
          (post : List (String × (List Char → Bool))),
        patternTable = pre ++ pr :: post → pr.2 (lowerData b.code.data) = true →
        (∀ q ∈ pre, q.2 (lowerData b.code.data) = false) →
        evaluate b = PolicyDecision.DenyPattern pr.1)) ∧
    evaluate ⟨"bash", "rm -rf /"⟩ = PolicyDecision.DenyPattern ("rm\\s+-rf") ∧
    evaluate ⟨"ruby", "puts 1"⟩ = PolicyDecision.DenyUnsupported ("ruby") ∧
    evaluate ⟨"python", "print(1)"⟩ = PolicyDecision.Allow := by
  refine ⟨?_, ?_, by decide, by decide, by decide⟩
  · intro hmem
    simp [evaluate, hmem]
  · intro hmem
    constructor
    · intro hall
      have hnone : firstDangerous (lowerData b.code.data) = none :=
        firstDangerousAux_all_false _ _ hall
      unfold evaluate
      rw [if_pos hmem, hnone]
    · intro pre pr post htable hm hpre
      have hsome : firstDangerous (lowerData b.code.data) = some pr.1 := by
        unfold firstDangerous
        rw [htable]
        exact firstDangerousAux_first _ pre pr post hm hpre
      unfold evaluate
      rw [if_pos hmem, hsome]

theorem policy_screen_spec_witness :
    evaluate ⟨"ruby", "x"⟩ = PolicyDecision.DenyUnsupported ("ruby") ∧
    evaluate ⟨"bash", "sleep 60"⟩ = PolicyDecision.Allow :=
  ⟨(policy_screen_spec ⟨"ruby", "x"⟩).1 (by decide),
   ((policy_screen_spec ⟨"bash", "sleep 60"⟩).2.1 (by decide)).1 (by decide)⟩

theorem startsWith_iff (n : List Char) :
    ∀ h : List Char, startsWith n h = true ↔ ∃ t, h = n ++ t := by
  induction n with
  | nil =>
    intro h
    simp [startsWith]
  | cons c cs ih =>
    intro h
    cases h with
    | nil =>
      simp [startsWith]
    | cons d ds =>
      rw [startsWith, Bool.and_eq_true, decide_eq_true_eq, ih]
      constructor
      · rintro ⟨rfl, t, rfl⟩
        exact ⟨t, rfl⟩
      · rintro ⟨t, ht⟩
        rw [List.cons_append] at ht
        injection ht with h1 h2
        exact ⟨h1.symm, t, h2⟩

theorem searchAt_iff (test : List Char → Bool) :
    ∀ h : List Char, searchAt test h = true ↔ ∃ pre suf, h = pre ++ suf ∧ test suf = true := by
  intro h
  induction h with
  | nil =>
    constructor
    · intro ht
      exact ⟨[], [], rfl, ht⟩
    · rintro ⟨pre, suf, hps, htest⟩
      obtain ⟨rfl, rfl⟩ := List.append_eq_nil.mp hps.symm
      exact htest
  | cons c rest ih =>
    rw [searchAt, Bool.or_eq_true]
    constructor
    · rintro (ht | ht)
      · exact ⟨[], c :: rest, rfl, ht⟩
      · obtain ⟨pre, suf, rfl, htest⟩ := ih.mp ht
        exact ⟨c :: pre, suf, rfl, htest⟩
    · rintro ⟨pre, suf, heq, htest⟩
      cases pre with
      | nil =>
        left
        rw [List.nil_append] at heq
        rw [heq]
        exact htest
      | cons p ps =>
        right
        rw [List.cons_append] at heq
        injection heq with h1 h2
        exact ih.mpr ⟨ps, suf, h2, htest⟩

theorem containsSub_iff (n h : List Char) :
    containsSub n h = true ↔ ∃ pre post, h = pre ++ (n ++ post) := by
  unfold containsSub
  rw [searchAt_iff]
  constructor
  · rintro ⟨pre, suf, rfl, hsw⟩
    obtain ⟨t, rfl⟩ := (startsWith_iff n suf).mp hsw
    exact ⟨pre, t, rfl⟩
  · rintro ⟨pre, post, rfl⟩
    exact ⟨pre, n ++ post, rfl, (startsWith_iff n (n ++ post)).mpr ⟨post, rfl⟩⟩

/-- C10: the deny patterns are unanchored case-insensitive searches over
the whole body for every allowed language, so benign substrings trigger
denial: every allowed-language body containing the substring sudoku is
denied, a python body calling the str.format method is denied naming the
format pattern, and a body mentioning sudoku is denied naming sudo. -/
theorem benign_substring_denied :
    (∀ lang body : String, lang ∈ allowedLanguages →
      containsSub (("sudoku").data) body.data = true →
      ∃ p, evaluate ⟨lang, body⟩ = PolicyDecision.DenyPattern p) ∧
    evaluate ⟨"python", "print('\x7b\x7d'.format(1))"⟩
      = PolicyDecision.DenyPattern ("format") ∧
    evaluate ⟨"bash", "solve sudoku"⟩ = PolicyDecision.DenyPattern ("sudo") := by
  refine ⟨?_, by decide, by decide⟩
  intro lang body hmem hsub
  obtain ⟨pre, post, hb⟩ := (containsSub_iff _ _).mp hsub
  have hlow : lowerData body.data
      = lowerData pre ++ (("sudo").data ++ (("ku").data ++ lowerData post)) := by
    rw [hb]
    unfold lowerData
    rw [List.map_append, List.map_append]
    have hword : (("sudoku").data).map Char.toLower = ("sudo").data ++ ("ku").data := by
      decide
    rw [hword]
    simp [List.append_assoc]
  have hsudo : litSearch (("sudo").data) (lowerData body.data) = true := by
    unfold litSearch
    rw [hlow]
    exact (containsSub_iff _ _).mpr ⟨lowerData pre, ("ku").data ++ lowerData post, rfl⟩
  cases hrm : sepSearch (("rm").data) (("-rf").data) (lowerData body.data) with
  | true =>
    refine ⟨"rm\\s+-rf", ?_⟩
    have hsome : firstDangerous (lowerData body.data) = some ("rm\\s+-rf") := by
      unfold firstDangerous patternTable
      simp only [firstDangerousAux, hrm, if_true]
    unfold evaluate
    rw [if_pos hmem]
    rw [show (CodeBlock.mk lang body).code = body from rfl, hsome]
  | false =>
    refine ⟨"sudo", ?_⟩
    have hsome : firstDangerous (lowerData body.data) = some ("sudo") := by
      unfold firstDangerous patternTable
      simp only [firstDangerousAux, hrm, hsudo, Bool.false_eq_true, if_false, if_true]
    unfold evaluate
    rw [if_pos hmem]
    rw [show (CodeBlock.mk lang body).code = body from rfl, hsome]

theorem benign_substring_denied_witness :
    ∃ p, evaluate ⟨"bash", "play sudoku now"⟩ = PolicyDecision.DenyPattern p :=
  benign_substring_denied.1 ("bash") ("play sudoku now") (by decide) (by decide)

/-- C1: on the timeout path the source returns the timed-out result, but
it performs no kill or terminate on the child, so the child process is
still running when `execute_code_block` returns — the claimed teardown
(child terminated, no process left running) does not happen.  Evaluated
at the failing input, a bash block running sleep 60 whose child exceeds
the 30-second deadline. -/
theorem timeout_returns_timedout_but_child_still_running :
    execute_code_block ⟨"bash", "sleep 60"⟩ SpawnOutcome.timesOut
      = ⟨Status.TimedOut, "", "❌ *Execution timed out* (30 second limit)",
          ProcState.running⟩ := by
  decide

theorem execute_allow (b : CodeBlock) (out : SpawnOutcome)
    (hAllow : evaluate b = PolicyDecision.Allow) :
    execute_code_block b out
      = (if b.language = "bash" || b.language = "sh" then
          runBranch ("Executed successfully") ("Execution failed") out
        else if b.language = "python" || b.language = "py" then
          runBranch ("Python executed successfully") ("Python execution failed") out
        else
          runBranch ("Node.js executed successfully") ("Node.js execution failed") out) := by
  unfold execute_code_block
  rw [hAllow]

/-- C5: `execute_code_block` always hands its caller a value: a block the
policy denies yields the Blocked result with no process spawned, whatever
the environment outcome would have been, and an exception from the spawn
mechanism yields the ExecutionError result carrying the exception's
message. -/
theorem execute_total_spec (b : CodeBlock) (out : SpawnOutcome) :
    ((∃ l, evaluate b = PolicyDecision.DenyUnsupported l) ∨
      (∃ p, evaluate b = PolicyDecision.DenyPattern p) →
      (execute_code_block b out).status = Status.Blocked ∧
      (execute_code_block b out).procState = ProcState.notSpawned) ∧
    (∀ m, evaluate b = PolicyDecision.Allow → out = SpawnOutcome.raisesError m →
      (execute_code_block b out).status = Status.ExecutionError ∧
      (execute_code_block b out).output = m ∧
      (execute_code_block b out).rendered = "❌ *Execution error:* " ++ m) := by
  constructor
  · intro hd
    unfold execute_code_block
    rcases hd with ⟨l, hl⟩ | ⟨p, hp⟩
    · rw [hl]
      exact ⟨rfl, rfl⟩
    · rw [hp]
      exact ⟨rfl, rfl⟩
  · intro m hAllow hout
    subst hout
    rw [execute_allow b _ hAllow]
    split
    · exact ⟨rfl, rfl, rfl⟩
    · split
      · exact ⟨rfl, rfl, rfl⟩
      · exact ⟨rfl, rfl, rfl⟩

theorem execute_total_spec_witness :
    (execute_code_block ⟨"ruby", "puts 1"⟩ (SpawnOutcome.completes 0 ("") (""))).status
      = Status.Blocked ∧
    (execute_code_block ⟨"bash", "ls"⟩ (SpawnOutcome.raisesError ("boom"))).status
      = Status.ExecutionError ∧
    (execute_code_block ⟨"bash", "ls"⟩ (SpawnOutcome.raisesError ("boom"))).output
      = "boom" :=
  ⟨((execute_total_spec ⟨"ruby", "puts 1"⟩ (SpawnOutcome.completes 0 ("") (""))).1
      (Or.inl ⟨"ruby", by decide⟩)).1,
   ((execute_total_spec ⟨"bash", "ls"⟩ (SpawnOutcome.raisesError ("boom"))).2 ("boom")
      (by decide) rfl).1,
   ((execute_total_spec ⟨"bash", "ls"⟩ (SpawnOutcome.raisesError ("boom"))).2 ("boom")
      (by decide) rfl).2.1⟩

theorem runBranch_completes (okL failL : String) (rc : Int) (o e : String) :
    (rc = 0 →
      (runBranch okL failL (SpawnOutcome.completes rc o e)).status = Status.Success ∧
      (runBranch okL failL (SpawnOutcome.completes rc o e)).output = o ∧
      (o = "" → (runBranch okL failL (SpawnOutcome.completes rc o e)).rendered
        = "✅ *" ++ okL ++ "* (no output)") ∧
      (o ≠ "" → (runBranch okL failL (SpawnOutcome.completes rc o e)).rendered
        = "✅ *" ++ okL ++ ":*\n```shell\n" ++ o ++ "\n```")) ∧
    (rc ≠ 0 →
      (runBranch okL failL (SpawnOutcome.completes rc o e)).status = Status.Failure ∧
      (runBranch okL failL (SpawnOutcome.completes rc o e)).output = e) := by
  constructor
  · intro hrc
    subst hrc
    by_cases hs : o = ""
    · simp [runBranch, hs]
    · simp [runBranch, hs]
  · intro hrc
    simp [runBranch, hrc]

/-- C6: for an allowed block whose child completes within the deadline,
exit status 0 gives the Success result whose output is the captured
stdout and whose rendered message embeds that stdout, or carries the
explicit no-output marker when stdout is empty; a nonzero exit gives the
Failure result whose output is the captured stderr.  In particular the
python print(1+1) block, whose child exits 0 printing 2, yields Success
with output containing 2. -/
theorem normal_exit_spec (b : CodeBlock) (rc : Int) (stdout stderr : String)
    (hAllow : evaluate b = PolicyDecision.Allow) :
    ((rc = 0 →
      (execute_code_block b (SpawnOutcome.completes rc stdout stderr)).status
        = Status.Success ∧
      (execute_code_block b (SpawnOutcome.completes rc stdout stderr)).output = stdout ∧
      (stdout = "" → ∃ lb,
        (execute_code_block b (SpawnOutcome.completes rc stdout stderr)).rendered
          = "✅ *" ++ lb ++ "* (no output)") ∧
      (stdout ≠ "" → ∃ lb,
        (execute_code_block b (SpawnOutcome.completes rc stdout stderr)).rendered
          = "✅ *" ++ lb ++ ":*\n```shell\n" ++ stdout ++ "\n```")) ∧
    (rc ≠ 0 →
      (execute_code_block b (SpawnOutcome.completes rc stdout stderr)).status
        = Status.Failure ∧
      (execute_code_block b (SpawnOutcome.completes rc stdout stderr)).output = stderr)) ∧
    (execute_code_block ⟨"python", "print(1+1)"⟩
        (SpawnOutcome.completes 0 ("2\n") (""))).status = Status.Success ∧
    containsSub (("2").data)
      (execute_code_block ⟨"python", "print(1+1)"⟩
        (SpawnOutcome.completes 0 ("2\n") (""))).output.data = true := by
  refine ⟨?_, by decide, by decide⟩
  rw [execute_allow b (SpawnOutcome.completes rc stdout stderr) hAllow]
  split
  · exact ⟨fun hrc =>
      ⟨((runBranch_completes _ _ rc stdout stderr).1 hrc).1,
       ((runBranch_completes _ _ rc stdout stderr).1 hrc).2.1,
       fun hs => ⟨_, ((runBranch_completes _ _ rc stdout stderr).1 hrc).2.2.1 hs⟩,
       fun hs => ⟨_, ((runBranch_completes _ _ rc stdout stderr).1 hrc).2.2.2 hs⟩⟩,
      fun hrc => (runBranch_completes _ _ rc stdout stderr).2 hrc⟩
  · split
    · exact ⟨fun hrc =>
        ⟨((runBranch_completes _ _ rc stdout stderr).1 hrc).1,
         ((runBranch_completes _ _ rc stdout stderr).1 hrc).2.1,
         fun hs => ⟨_, ((runBranch_completes _ _ rc stdout stderr).1 hrc).2.2.1 hs⟩,
         fun hs => ⟨_, ((runBranch_completes _ _ rc stdout stderr).1 hrc).2.2.2 hs⟩⟩,
        fun hrc => (runBranch_completes _ _ rc stdout stderr).2 hrc⟩
    · exact ⟨fun hrc =>
        ⟨((runBranch_completes _ _ rc stdout stderr).1 hrc).1,
         ((runBranch_completes _ _ rc stdout stderr).1 hrc).2.1,
         fun hs => ⟨_, ((runBranch_completes _ _ rc stdout stderr).1 hrc).2.2.1 hs⟩,
         fun hs => ⟨_, ((runBranch_completes _ _ rc stdout stderr).1 hrc).2.2.2 hs⟩⟩,
        fun hrc => (runBranch_completes _ _ rc stdout stderr).2 hrc⟩

theorem normal_exit_spec_witness :
    (execute_code_block ⟨"python", "print(1+1)"⟩
        (SpawnOutcome.completes 0 ("2\n") (""))).status = Status.Success ∧
    (execute_code_block ⟨"python", "print(1+1)"⟩
        (SpawnOutcome.completes 0 ("2\n") (""))).output = "2\n" :=
  have h := (normal_exit_spec ⟨"python", "print(1+1)"⟩ 0 ("2\n") ("") (by decide)).1.1 rfl
  ⟨h.1, h.2.1⟩

theorem startsWith_of_take :
    ∀ n h : List Char, h.take n.length = n → startsWith n h = true := by
  intro n
  induction n with
  | nil =>
    intro h _
    rfl
  | cons c cs ih =>
    intro h htake
    cases h with
    | nil => simp at htake
    | cons d ds =>
      rw [List.length_cons, List.take_succ_cons] at htake
      injection htake with h1 h2
      rw [startsWith, Bool.and_eq_true, decide_eq_true_eq]
      exact ⟨h1.symm, ih ds h2⟩

theorem scanAux_no_fence :
    ∀ (fuel : Nat) (cs : List Char),
      containsSub fence cs = false → scanAux fuel cs = [] := by
  intro fuel
  induction fuel with
  | zero =>
    intro cs _
    rfl
  | succ fuel ih =>
    intro cs hnf
    cases cs with
    | nil => rfl
    | cons c rest =>
      have hor : (startsWith fence (c :: rest) || containsSub fence rest) = false := hnf
      have h1 : startsWith fence (c :: rest) = false := by
        cases hsw : startsWith fence (c :: rest)
        · rfl
        · rw [hsw] at hor
          simp at hor
      have h2 : containsSub fence rest = false := by
        cases hcs : containsSub fence rest
        · rfl
        · rw [hcs] at hor
          simp at hor
      have hm : matchAt (c :: rest) = none := by
        unfold matchAt
        rw [if_neg ?hne]
        case hne =>
          intro haeq
          have hsw : startsWith fence (c :: rest) = true :=
            startsWith_of_take fence (c :: rest)
              (by rw [show fence.length = 3 from rfl]; exact haeq)
          rw [hsw] at h1
          exact absurd h1 (by simp)
      simp only [scanAux, hm]
      exact ih rest h2

/-- C7: extraction yields, in order, one block per fenced segment whose
trimmed body is nonempty, the body stripped of surrounding whitespace and
the tag lowercased, defaulting to bash when the segment carries no tag;
the python round-trip yields exactly one python block with body print(1),
and text with no fence marker yields the empty sequence. -/
theorem extract_spec :
    extract_code_blocks ("```python\nprint(1)\n```") = [⟨"python", "print(1)"⟩] ∧
    extract_code_blocks ("```py\na\n```x```js\nb\n```")
      = [⟨"py", "a"⟩, ⟨"js", "b"⟩] ∧
    (∀ t : String, containsSub fence t.data = false → extract_code_blocks t = []) ∧
    (∀ t : String, ∀ b ∈ extract_code_blocks t,
      ∃ tag body, (tag, body) ∈ scanAux t.data.length t.data ∧
        stripChars body ≠ [] ∧ b.code = String.mk (stripChars body) ∧
        b.language = (if tag = [] then "bash" else String.mk (lowerData tag))) := by
  refine ⟨by decide, by decide, ?_, ?_⟩
  · intro t hnf
    unfold extract_code_blocks
    rw [scanAux_no_fence _ _ hnf]
    rfl
  · intro t b hb
    unfold extract_code_blocks at hb
    obtain ⟨m, hm, hf⟩ := List.mem_filterMap.mp hb
    by_cases hempty : stripChars m.2 = []
    · rw [if_pos hempty] at hf
      exact absurd hf (by simp)
    · rw [if_neg hempty] at hf
      injection hf with hf'
      subst hf'
      exact ⟨m.1, m.2, hm, hempty, rfl, rfl⟩

theorem extract_spec_witness :
    extract_code_blocks ("no code here") = [] :=
  extract_spec.2.2.1 ("no code here") (by decide)

/-- C9: a fence whose entire content is the single word ls, with no
surrounding whitespace, has that word consumed as the language tag by the
extraction pattern, leaving an empty trimmed body, so the segment is
dropped and no block is extracted for it. -/
theorem one_word_fence_dropped :
    matchAt (("```ls```").data) = some ((("ls").data), [], []) ∧
    extract_code_blocks ("```ls```") = [] := by
  exact ⟨by decide, by decide⟩

theorem chunksOf_flatten (cs : List Char) : (chunksOf cs).flatten = cs := by
  induction cs using chunksOf.induct with
  | case1 => simp [chunksOf]
  | case2 c rest ih =>
    rw [chunksOf]
    rw [List.flatten_cons, ih, List.take_append_drop]

theorem chunksOf_length_le (cs : List Char) :
    ∀ c ∈ chunksOf cs, c.length ≤ chunkSize := by
  induction cs using chunksOf.induct with
  | case1 =>
    intro c hc
    exact absurd hc (by simp [chunksOf])
  | case2 c rest ih =>
    intro ck hck
    rw [chunksOf] at hck
    rcases List.mem_cons.mp hck with h | h
    · rw [h]
      exact List.length_take_le _ _
    · exact ih ck h

theorem chunksOf_getElem (cs : List Char) :
    ∀ i, i < (chunksOf cs).length →
      (chunksOf cs)[i]? = some ((cs.drop (chunkSize * i)).take chunkSize) := by
  induction cs using chunksOf.induct with
  | case1 =>
    intro i hi
    exact absurd hi (by simp [chunksOf])
  | case2 c rest ih =>
    intro i hi
    rw [chunksOf]
    cases i with
    | zero => simp
    | succ j =>
      rw [List.getElem?_cons_succ]
      rw [chunksOf] at hi
      rw [List.length_cons] at hi
      rw [ih j (by omega)]
      rw [List.drop_drop]
      have heq : chunkSize + chunkSize * j = chunkSize * (j + 1) := by
        simp [chunkSize]
        omega
      rw [heq]

theorem string_eq_of_data {a b : String} (h : a.data = b.data) : a = b :=
  String.ext h

theorem foldl_string_append_data :
    ∀ (l : List String) (acc : String),
      (l.foldl (fun r s => r ++ s) acc).data = acc.data ++ (l.map String.data).flatten := by
  intro l
  induction l with
  | nil =>
    intro acc
    simp
  | cons s rest ih =>
    intro acc
    rw [List.foldl_cons, ih, List.map_cons, List.flatten_cons, String.data_append,
      List.append_assoc]

theorem string_join_data (l : List String) :
    (String.join l).data = (l.map String.data).flatten := by
  unfold String.join
  rw [foldl_string_append_data]
  rfl

/-- C8: when the concatenated result text is longer than 4000 characters
it is split into consecutive slices taken in order at the 4000-character
threshold, every emitted part has length at most 4000, and joining all
parts in order reproduces the original text exactly. -/
theorem split_spec (s : String) (h : s.length > chunkSize) :
    (∀ part ∈ split_long_message s, part.length ≤ chunkSize) ∧
    String.join (split_long_message s) = s ∧
    (∀ i, i < (split_long_message s).length →
      (split_long_message s)[i]?
        = some (String.mk ((s.data.drop (chunkSize * i)).take chunkSize))) := by
  have hsplit : split_long_message s = (chunksOf s.data).map String.mk := by
    unfold split_long_message
    rw [if_pos h]
  refine ⟨?_, ?_, ?_⟩
  · intro part hp
    rw [hsplit] at hp
    obtain ⟨c, hc, rfl⟩ := List.mem_map.mp hp
    have := chunksOf_length_le s.data c hc
    simpa using this
  · rw [hsplit]
    apply string_eq_of_data
    rw [string_join_data, List.map_map]
    have hcomp : String.data ∘ String.mk = fun cs : List Char => cs := rfl
    rw [hcomp, List.map_id', chunksOf_flatten]
  · intro i hi
    rw [hsplit] at hi ⊢
    rw [List.getElem?_map]
    rw [chunksOf_getElem s.data i (by simpa using hi)]
    rfl

theorem split_spec_witness :
    String.join (split_long_message bigString) = bigString :=
  (split_spec bigString (by
    have h1 : bigString.length = 4001 := by
      rw [show bigString = String.mk (List.replicate 4001 'x') from rfl, String.length_mk,
        List.length_replicate]
    rw [h1]
    decide)).2.1

end Saaraa
